import Mathlib

/-!
# Verification of the histogram / numeric aggregation engine

Shallow embedding of `tracing/tracing/value/numeric.js` (vendored in
lighthouse as `lighthouse-core/third_party/traceviewer-js/value/numeric.js`).

Modelling conventions:
* JavaScript numbers are embedded as `JSNum`: an exact rational, `+Infinity`,
  `-Infinity`, or `NaN`.  All arithmetic exercised by the verified claims is
  exact over the rationals (the code only adds, subtracts, halves and compares
  the stored boundaries), so no floating-point rounding is modelled.  Bin
  boundaries and bin ranges as stored by the code are always finite
  (`±Number.MAX_VALUE`, not `±Infinity`), so bins carry plain rationals.
* Collaborators that live outside the provided sources (`tr.v.Unit`,
  `tr.b.RunningStatistics`, `tr.b.Statistics` reservoir sampling,
  `tr.b.findHighIndexInSortedArray`, the Mann-Whitney U test) are modelled
  from the spec; each such definition says so in its doc comment.
* Exceptions are embedded as `Except String`; the thrown message is the
  source's message text.
-/

/-- A JavaScript number: an exact rational, an infinity, or `NaN`.
Non-`number` values fed to `Numeric.add` behave exactly like `NaN` there
(`typeof(value) !== 'number' || isNaN(value)`), so `nan` also stands for them. -/
inductive JSNum where
  | finite (q : ℚ)
  | posInf
  | negInf
  | nan
deriving DecidableEq, Repr

namespace JSNum

/-- JavaScript `isNaN`. -/
def isNaNB : JSNum → Bool
  | .nan => true
  | _ => false

/-- JavaScript `<` (any comparison with `NaN` is false). -/
def ltB : JSNum → JSNum → Bool
  | .nan, _ => false
  | _, .nan => false
  | .negInf, .negInf => false
  | .negInf, _ => true
  | _, .negInf => false
  | .posInf, _ => false
  | .finite _, .posInf => true
  | .finite a, .finite b => decide (a < b)

/-- JavaScript subtraction on the embedded numbers. -/
def sub : JSNum → JSNum → JSNum
  | .nan, _ => .nan
  | _, .nan => .nan
  | .posInf, .posInf => .nan
  | .posInf, _ => .posInf
  | .negInf, .negInf => .nan
  | .negInf, _ => .negInf
  | .finite _, .posInf => .negInf
  | .finite _, .negInf => .posInf
  | .finite a, .finite b => .finite (a - b)

/-- JavaScript `Math.min`. -/
def minJ : JSNum → JSNum → JSNum
  | .nan, _ => .nan
  | _, .nan => .nan
  | .negInf, _ => .negInf
  | _, .negInf => .negInf
  | .posInf, b => b
  | a, .posInf => a
  | .finite a, .finite b => .finite (min a b)

/-- JavaScript `Math.max`. -/
def maxJ : JSNum → JSNum → JSNum
  | .nan, _ => .nan
  | _, .nan => .nan
  | .posInf, _ => .posInf
  | _, .posInf => .posInf
  | .negInf, b => b
  | a, .negInf => a
  | .finite a, .finite b => .finite (max a b)

end JSNum

/-- `Number.MAX_VALUE`, exactly: `(2^53 - 1) * 2^971`. -/
def maxJSValue : ℚ := (2 ^ 53 - 1) * 2 ^ 971

/-- Modelled from the spec (the `unit.js` collaborator is not under the
provided sources): "improvement direction" classification of a unit. -/
inductive ImprovementDirection where
  | higherIsBetter
  | lowerIsBetter
  | dontCare
deriving DecidableEq, Repr

/-- Modelled from the spec (the `unit.js` collaborator is not under the
provided sources): a unit is an equality-comparable identity carrying an
improvement direction.  Units are interned by name in the source, so the
JavaScript reference identity `===` coincides with structural equality here.
The serialization token of a unit is the unit itself (`asJSON`/`fromJSON`
round-trip through a compact token). -/
structure VUnit where
  name : ℕ
  improvementDirection : ImprovementDirection
deriving DecidableEq, Repr

/-- Modelled from the spec (streaming-statistics collaborator
`tr.b.RunningStatistics` is not under the provided sources): it accumulates
the stream of values fed to it and supports an associative merge producing a
new instance. -/
structure RunningStatistics where
  vals : List JSNum
deriving DecidableEq, Repr

namespace RunningStatistics

def empty : RunningStatistics := ⟨[]⟩

def add (r : RunningStatistics) (v : JSNum) : RunningStatistics := ⟨r.vals ++ [v]⟩

/-- `RunningStatistics.merge` returns a fresh merged instance. -/
def merge (r s : RunningStatistics) : RunningStatistics := ⟨r.vals ++ s.vals⟩

end RunningStatistics

/-- Modelled from the spec (reservoir-sampling collaborator
`tr.b.Statistics.uniformlySampleStream` is not under the provided sources):
offers one candidate to a size-capped reservoir keyed by the number of items
seen so far.  Randomness is replaced by a deterministic rule (append while
under capacity, otherwise keep); no verified claim depends on which retained
subset the real sampler keeps, only on the surrounding control flow. -/
def uniformlySampleStream {α : Type} (xs : List α) (numSeen : ℚ) (x : α)
    (cap : ℚ) : List α :=
  let _ := numSeen
  if (xs.length : ℚ) < cap then xs ++ [x] else xs

/-- Modelled from the spec (reservoir-sampling collaborator
`tr.b.Statistics.mergeSampledStreams` is not under the provided sources):
merges two capped reservoirs, keyed by each side's count, into a reservoir of
the target capacity.  Randomness is replaced by a deterministic rule with the
same capacity behaviour. -/
def mergeSampledStreams {α : Type} (xs : List α) (numSeenXs : ℚ) (ys : List α)
    (numSeenYs : ℚ) (cap : ℚ) : List α :=
  let _ := numSeenXs
  let _ := numSeenYs
  (xs ++ ys).take (max 0 ⌊cap⌋).toNat

/-- `MAX_DIAGNOSTICS` from the source. -/
def maxDiagnostics : ℚ := 16

/-- `DEFAULT_ALPHA` from the source: p-values below this indicate
statistical significance. -/
def defaultAlpha : ℚ := 1 / 20

/-- The `Significance` enum from the source. -/
inductive Significance where
  | dontCare
  | insignificant
  | significant
deriving DecidableEq, Repr

/-- A histogram bin (`NumericBin`): a range, a count, and a bounded reservoir
of exemplar diagnostics.  Diagnostics are opaque payloads, embedded as `ℕ`.
Bin ranges as stored by the code are always finite rationals. -/
structure NumericBin where
  lo : ℚ
  hi : ℚ
  count : ℕ
  diagnostics : List ℕ
deriving DecidableEq, Repr

namespace NumericBin

/-- `NumericBin.prototype.add`. -/
def add (b : NumericBin) (optDiag : Option ℕ) : NumericBin :=
  let b' := { b with count := b.count + 1 }
  match optDiag with
  | some d =>
    { b' with diagnostics :=
        uniformlySampleStream b'.diagnostics (b'.count : ℚ) d maxDiagnostics }
  | none => b'

/-- `NumericBin.prototype.addBin`. -/
def addBin (b other : NumericBin) : Except String NumericBin :=
  if ¬ (b.lo = other.lo ∧ b.hi = other.hi) then
    .error "Merging incompatible Numeric bins."
  else
    .ok { b with
      diagnostics := mergeSampledStreams b.diagnostics (b.count : ℚ)
        other.diagnostics (other.count : ℚ) maxDiagnostics,
      count := b.count + other.count }

end NumericBin

/-- The per-histogram summary options (`defaultSummaryOptions`). -/
structure SummaryOptions where
  count : Bool
  sum : Bool
  avg : Bool
  std : Bool
  min : Bool
  max : Bool
  nans : Bool
  percentile : List ℚ
deriving DecidableEq, Repr

/-- `Numeric.prototype.defaultSummaryOptions`. -/
def defaultSummaryOptions : SummaryOptions :=
  { count := true, sum := true, avg := true, std := true, min := true,
    max := true, nans := false, percentile := [] }

/-- A partial summary-options dictionary as passed to
`customizeSummaryOptions` (absent keys leave the option unchanged). -/
structure SummaryOptionsUpdate where
  count : Option Bool
  sum : Option Bool
  avg : Option Bool
  std : Option Bool
  min : Option Bool
  max : Option Bool
  nans : Option Bool
  percentile : Option (List ℚ)
deriving DecidableEq, Repr

/-- `Numeric.prototype.customizeSummaryOptions`: shallow merge of the
supplied keys into the existing options. -/
def customizeSummaryOptions (so : SummaryOptions) (u : SummaryOptionsUpdate) :
    SummaryOptions :=
  { count := u.count.getD so.count
    sum := u.sum.getD so.sum
    avg := u.avg.getD so.avg
    std := u.std.getD so.std
    min := u.min.getD so.min
    max := u.max.getD so.max
    nans := u.nans.getD so.nans
    percentile := u.percentile.getD so.percentile }

/-- The `binInfo` argument of the `Numeric` constructor. -/
structure BinInfo where
  underflowBin : NumericBin
  centralBins : List NumericBin
  overflowBin : NumericBin
deriving DecidableEq, Repr

/-- The `Numeric` histogram state.  The source's `allBins` array aliases the
same bin objects as `underflowBin`/`centralBins`/`overflowBin`; here it is the
derived list `Numeric.allBins`. -/
structure Numeric where
  unit : VUnit
  rangeLo : ℚ
  rangeHi : ℚ
  numNans : ℕ
  nanDiagnostics : List ℕ
  running : RunningStatistics
  maxCount_ : ℕ
  underflowBin : NumericBin
  centralBins : List NumericBin
  overflowBin : NumericBin
  sampleValues_ : List JSNum
  maxNumSampleValues : ℚ
  summaryOptions : SummaryOptions
deriving DecidableEq, Repr

namespace Numeric

/-- The `allBins` array: underflow, then the central bins, then overflow. -/
def allBins (n : Numeric) : List NumericBin :=
  n.underflowBin :: (n.centralBins ++ [n.overflowBin])

end Numeric

/-- The `Numeric` constructor (`function Numeric(unit, range, binInfo)`):
zero NaNs, empty reservoirs, `maxCount_` recomputed from the supplied bins,
sample-reservoir capacity `allBins.length * 10`. -/
def mkNumeric (u : VUnit) (rangeLo rangeHi : ℚ) (bi : BinInfo) : Numeric :=
  let allB := bi.underflowBin :: (bi.centralBins ++ [bi.overflowBin])
  { unit := u
    rangeLo := rangeLo
    rangeHi := rangeHi
    numNans := 0
    nanDiagnostics := []
    running := RunningStatistics.empty
    maxCount_ := allB.foldl (fun m b => if b.count > m then b.count else m) 0
    underflowBin := bi.underflowBin
    centralBins := bi.centralBins
    overflowBin := bi.overflowBin
    sampleValues_ := []
    maxNumSampleValues := (allB.length : ℚ) * 10
    summaryOptions := defaultSummaryOptions }

namespace Numeric

/-- `get numValues`: `Statistics.sum` of `bin.count` over `allBins`. -/
def numValues (n : Numeric) : ℕ :=
  (n.allBins.map NumericBin.count).sum

/-- The bin count the cache `maxCount_` is supposed to track: the maximum of
`bin.count` over `allBins`. -/
def maxBinCount (n : Numeric) : ℕ :=
  (n.allBins.map NumericBin.count).foldl Nat.max 0

/-- The cached-maximum invariant claimed by the spec. -/
def MaxCountInv (n : Numeric) : Prop :=
  n.maxCount_ = n.maxBinCount

instance (n : Numeric) : Decidable n.MaxCountInv := by
  unfold MaxCountInv; infer_instance

end Numeric

/-- Replace the element at one position of a list (the JS code mutates
`allBins[i]` in place). -/
def modifyAt {α : Type} (f : α → α) : ℕ → List α → List α
  | _, [] => []
  | 0, a :: as => f a :: as
  | i + 1, a :: as => a :: modifyAt f i as

namespace Numeric

/-- Read a bin of `allBins` by position. -/
def binAt (n : Numeric) (i : ℕ) : NumericBin :=
  n.allBins.getD i n.overflowBin

/-- Write a bin of `allBins` by position (position 0 is the underflow bin,
the last position is the overflow bin). -/
def setBinAt (n : Numeric) (i : ℕ) (b : NumericBin) : Numeric :=
  if i = 0 then { n with underflowBin := b }
  else if i < 1 + n.centralBins.length then
    { n with centralBins := n.centralBins.set (i - 1) b }
  else { n with overflowBin := b }

/-- `Numeric.prototype.getBinForValue`, as the position of the chosen bin in
`allBins`.  `tr.b.findHighIndexInSortedArray` is not under the provided
sources; modelled from the spec: "first bin whose `range.max > value`,
defaulting to overflow if none matches". -/
def getBinIndexForValue (n : Numeric) (v : JSNum) : ℕ :=
  let idx := n.allBins.findIdx (fun b => v.ltB (.finite b.hi))
  if idx < n.allBins.length then idx else n.allBins.length - 1

/-- `Numeric.prototype.add`.  A non-`number` or `NaN` value goes to the NaN
bucket; a numeric value is attributed to its bin, fed to the running
statistics, and bumps the cached `maxCount_` when its bin's new count exceeds
it.  In both cases the value itself is offered to the global `sampleValues`
reservoir, keyed by `numValues + numNans` as read after the update. -/
def add (n : Numeric) (v : JSNum) (optDiag : Option ℕ) : Numeric :=
  let n' :=
    if v.isNaNB then
      let n1 := { n with numNans := n.numNans + 1 }
      match optDiag with
      | some d =>
        let nd := uniformlySampleStream n1.nanDiagnostics (n1.numNans : ℚ) d
          maxDiagnostics
        { n1 with nanDiagnostics := nd }
      | none => n1
    else
      let i := n.getBinIndexForValue v
      let newBin := (n.binAt i).add optDiag
      let n1 := n.setBinAt i newBin
      let n2 := { n1 with running := n1.running.add v }
      if newBin.count > n2.maxCount_ then { n2 with maxCount_ := newBin.count }
      else n2
  let sv := uniformlySampleStream n'.sampleValues_
    ((n'.numValues : ℚ) + (n'.numNans : ℚ)) v n'.maxNumSampleValues
  { n' with sampleValues_ := sv }

end Numeric

/-- Pairwise range equality of two bin lists (the loop body of
`canAddNumeric`). -/
def rangesEqB : List NumericBin → List NumericBin → Bool
  | [], [] => true
  | a :: as, b :: bs =>
    (decide (a.lo = b.lo) && decide (a.hi = b.hi)) && rangesEqB as bs
  | _, _ => false

/-- The bin-combining loop of `addNumeric`: `allBins[i].addBin(other.allBins[i])`
for every position. -/
def zipAddBins : List NumericBin → List NumericBin → Except String (List NumericBin)
  | [], [] => .ok []
  | a :: as, b :: bs => do
    let c ← a.addBin b
    let cs ← zipAddBins as bs
    .ok (c :: cs)
  | _, _ => .error "Merging incompatible Numeric bins."

namespace Numeric

/-- `Numeric.prototype.canAddNumeric`: same overall range, same unit, same
number of bins, and identical ranges for every corresponding bin pair. -/
def canAddNumeric (n other : Numeric) : Bool :=
  if ¬ (n.rangeLo = other.rangeLo ∧ n.rangeHi = other.rangeHi) then false
  else if n.unit ≠ other.unit then false
  else if n.allBins.length ≠ other.allBins.length then false
  else rangesEqB n.allBins other.allBins

/-- `Numeric.prototype.addNumeric` (in place in the source; here the updated
histogram is returned, and an `error` result means the source threw before
mutating anything — the `canAddNumeric` guard runs first).  On success: NaN
reservoirs merged keyed by each side's `numNans`, sample reservoirs merged
into the mean of the two capacities (`Statistics.mean` of the two), `numNans`
summed, running statistics merged, and every corresponding bin pair combined.
`maxCount_` is not touched. -/
def addNumeric (n other : Numeric) : Except String Numeric :=
  if ¬ n.canAddNumeric other then .error "Merging incompatible Numerics."
  else do
    let u ← n.underflowBin.addBin other.underflowBin
    let cs ← zipAddBins n.centralBins other.centralBins
    let o ← n.overflowBin.addBin other.overflowBin
    .ok { n with
      nanDiagnostics := mergeSampledStreams n.nanDiagnostics (n.numNans : ℚ)
        other.nanDiagnostics (other.numNans : ℚ) maxDiagnostics
      sampleValues_ := mergeSampledStreams n.sampleValues_ (n.numValues : ℚ)
        other.sampleValues_ (other.numValues : ℚ)
        ((n.maxNumSampleValues + other.maxNumSampleValues) / 2)
      numNans := n.numNans + other.numNans
      running := n.running.merge other.running
      underflowBin := u
      centralBins := cs
      overflowBin := o }

/-- The subtracting walk of `getApproximatePercentile`: position of the first
bin at which `valuesToSkip` goes negative. -/
def walkBins : List NumericBin → ℤ → Option ℕ
  | [], _ => none
  | b :: bs, skip =>
    let skip' := skip - (b.count : ℤ)
    if skip' < 0 then some 0 else (walkBins bs skip').map (· + 1)

/-- The value the percentile walk reports for the bin at position `i` of
`allBins`: `range.max` for the underflow bin, `range.min` for the overflow
bin, the range midpoint (`range.center`; `tr.b.Range.center` is not under the
provided sources, modelled from the spec as the midpoint) for a central bin. -/
def binOutValue (n : Numeric) (i : ℕ) : ℚ :=
  let b := n.allBins.getD i n.overflowBin
  if i = 0 then b.hi
  else if i = n.allBins.length - 1 then b.lo
  else (b.lo + b.hi) / 2

/-- `Numeric.prototype.getApproximatePercentile`. -/
def getApproximatePercentile (n : Numeric) (percent : ℚ) : Except String ℚ :=
  if ¬ (0 ≤ percent ∧ percent ≤ 1) then .error "percent must be [0,1]"
  else if n.numValues = 0 then .ok 0
  else
    match walkBins n.allBins ⌊((n.numValues : ℚ) - 1) * percent⌋ with
    | some i => .ok (n.binOutValue i)
    | none => .error "Unreachable"

end Numeric

/-- The reusable bin-layout builder (`NumericBuilder`): a unit and the
ascending boundary list, initialized with a single boundary. -/
structure NumericBuilder where
  unit_ : VUnit
  boundaries_ : List ℚ
deriving DecidableEq, Repr

namespace NumericBuilder

/-- `new NumericBuilder(unit, minBinBoundary)`. -/
def new (u : VUnit) (minBinBoundary : ℚ) : NumericBuilder := ⟨u, [minBinBoundary]⟩

/-- `get minBinBoundary`: `boundaries_[0]`. -/
def minBinBoundary (b : NumericBuilder) : ℚ := b.boundaries_.headD 0

/-- `get maxBinBoundary`: `boundaries_[boundaries_.length - 1]`. -/
def maxBinBoundary (b : NumericBuilder) : ℚ := b.boundaries_.getLastD 0

/-- `NumericBuilder.prototype.addBinBoundary`. -/
def addBinBoundary (b : NumericBuilder) (nextMaxBinBoundary : ℚ) :
    Except String NumericBuilder :=
  if nextMaxBinBoundary ≤ b.maxBinBoundary then
    .error "The added max bin boundary must be larger than the current max boundary"
  else .ok ⟨b.unit_, b.boundaries_ ++ [nextMaxBinBoundary]⟩

end NumericBuilder

/-- The interior loop of `addLinearBins`: `for (i = 1; i < binCount; i++)
addBinBoundary(curMax + i * binWidth)`, written with the remaining iteration
count as fuel (`fuel = binCount - i`). -/
def addLinearLoop (cur w : ℚ) : NumericBuilder → ℕ → ℕ →
    Except String NumericBuilder
  | b, _, 0 => .ok b
  | b, i, fuel + 1 =>
    match b.addBinBoundary (cur + (i : ℚ) * w) with
    | .error e => .error e
    | .ok b' => addLinearLoop cur w b' (i + 1) fuel

namespace NumericBuilder

/-- `NumericBuilder.prototype.addLinearBins`.  The bin count is a natural
number here, so the source's `binCount <= 0` guard is `binCount = 0`. -/
def addLinearBins (b : NumericBuilder) (nextMaxBinBoundary : ℚ) (binCount : ℕ) :
    Except String NumericBuilder :=
  if binCount = 0 then .error "Bin count must be positive"
  else
    let curMaxBinBoundary := b.maxBinBoundary
    if curMaxBinBoundary ≥ nextMaxBinBoundary then
      .error "The new max bin boundary must be greater than the previous max bin boundary"
    else
      let binWidth := (nextMaxBinBoundary - curMaxBinBoundary) / (binCount : ℚ)
      match addLinearLoop curMaxBinBoundary binWidth b 1 (binCount - 1) with
      | .error e => .error e
      | .ok b' => b'.addBinBoundary nextMaxBinBoundary

end NumericBuilder

/-- The central bins created by `build()`: one bin per adjacent boundary
pair. -/
def centralBinsOf : List ℚ → List NumericBin
  | a :: b :: rest => ⟨a, b, 0, []⟩ :: centralBinsOf (b :: rest)
  | _ => []

namespace NumericBuilder

/-- `NumericBuilder.prototype.build`: underflow bin
`[-Number.MAX_VALUE, minBinBoundary]`, overflow bin
`[maxBinBoundary, Number.MAX_VALUE]`, one central bin per adjacent boundary
pair, assembled by the `Numeric` constructor. -/
def build (b : NumericBuilder) : Numeric :=
  let binInfo : BinInfo :=
    { underflowBin := ⟨-maxJSValue, b.minBinBoundary, 0, []⟩
      centralBins := centralBinsOf b.boundaries_
      overflowBin := ⟨b.maxBinBoundary, maxJSValue, 0, []⟩ }
  mkNumeric b.unit_ b.minBinBoundary b.maxBinBoundary binInfo

end NumericBuilder

/-- `tr.b.Range` as used by `buildFromSamples`: possibly-empty, bounds are
arbitrary JavaScript numbers.  The source's uninitialized `min_`/`max_` are
modelled by the `isEmptyB` flag with placeholder bounds. -/
structure JSRange where
  isEmptyB : Bool
  lo : JSNum
  hi : JSNum
deriving DecidableEq, Repr

namespace JSRange

def empty : JSRange := ⟨true, .finite 0, .finite 0⟩

/-- `Range.prototype.addValue`. -/
def addValue (r : JSRange) (v : JSNum) : JSRange :=
  if r.isEmptyB then ⟨false, v, v⟩
  else ⟨false, r.lo.minJ v, r.hi.maxJ v⟩

end JSRange

/-- `Math.ceil(Math.sqrt(n))` for a natural number `n`: the least `k` with
`n ≤ k * k`. -/
def natCeilSqrt (n : ℕ) : ℕ :=
  if Nat.sqrt n * Nat.sqrt n = n then Nat.sqrt n else Nat.sqrt n + 1

/-- `Numeric.buildFromSamples`: observed range over non-NaN samples, widened
if empty or degenerate; `ceil(sqrt(samples.length))` linear bins over it;
sample-reservoir capacity raised to 1000; then every sample fed through
`add`.  The builder works over exact rationals, so a sample range with a
non-finite endpoint (only reachable from `±Infinity` samples) is outside the
model and reported as an error. -/
def Numeric.buildFromSamples (u : VUnit) (samples : List JSNum) :
    Except String Numeric :=
  let r0 := samples.foldl
    (fun r s => if s.isNaNB then r else r.addValue s) JSRange.empty
  let r1 := if r0.isEmptyB then r0.addValue (.finite 1) else r0
  let r2 := if r1.lo = r1.hi then r1.addValue (r1.lo.sub (.finite 1)) else r1
  match r2.lo, r2.hi with
  | .finite lo, .finite hi =>
    let numBins := natCeilSqrt samples.length
    match (NumericBuilder.new u lo).addLinearBins hi numBins with
    | .error e => .error e
    | .ok builder =>
      let result := builder.build
      let result := { result with maxNumSampleValues := 1000 }
      .ok (samples.foldl (fun n s => n.add s none) result)
  | _, _ => .error "non-finite sample range"

/-- `NumericBin.fromDict`'s input dictionary. -/
structure NumericBinDict where
  min : ℚ
  max : ℚ
  count : ℕ
  diagnostics : Option (List ℕ)
deriving DecidableEq, Repr

/-- `NumericBin.fromDict`. -/
def NumericBin.fromDict (d : NumericBinDict) : NumericBin :=
  ⟨d.min, d.max, d.count, d.diagnostics.getD []⟩

/-- `Numeric.fromDict`'s input dictionary.  The serialized unit token is the
unit itself (see `VUnit`). -/
structure NumericDict where
  unit : VUnit
  min : ℚ
  max : ℚ
  numNans : ℕ
  nanDiagnostics : Option (List ℕ)
  running : Option RunningStatistics
  summaryOptions : Option SummaryOptionsUpdate
  sampleValues : List JSNum
  maxNumSampleValues : ℚ
  underflowBin : NumericBinDict
  centralBins : List NumericBinDict
  overflowBin : NumericBinDict
deriving DecidableEq, Repr

/-- `Numeric.fromDict`: rebuilds the layout through the `Numeric` constructor
(which recomputes `maxCount_` from the deserialized counts), then restores
running statistics, summary options, NaN data, and the sample reservoir. -/
def Numeric.fromDict (d : NumericDict) : Numeric :=
  let binInfo : BinInfo :=
    { underflowBin := NumericBin.fromDict d.underflowBin
      centralBins := d.centralBins.map NumericBin.fromDict
      overflowBin := NumericBin.fromDict d.overflowBin }
  let n := mkNumeric d.unit d.min d.max binInfo
  let n := match d.running with
    | some r => { n with running := r }
    | none => n
  let n := match d.summaryOptions with
    | some so => { n with summaryOptions := customizeSummaryOptions n.summaryOptions so }
    | none => n
  let n := { n with numNans := d.numNans }
  let n := match d.nanDiagnostics with
    | some l => { n with nanDiagnostics := l }
    | none => n
  { n with maxNumSampleValues := d.maxNumSampleValues
           sampleValues_ := d.sampleValues }

/-- `ScalarNumeric`: a unit and a single value (the constructor requires the
value to be a JavaScript number; all `JSNum`s are). -/
structure ScalarNumeric where
  unit : VUnit
  value : JSNum
deriving DecidableEq, Repr

/-- A serialized scalar's `value` field: either numeric JSON or a literal
string token. -/
inductive ScalarJSONValue where
  | num (q : ℚ)
  | str (s : String)
deriving DecidableEq, Repr

/-- The serialized form of a `ScalarNumeric` (its `asDict` output: the unit
token plus the `asDictInto_` payload; the `type` tag is implied by the
type). -/
structure ScalarDict where
  unit : VUnit
  value : ScalarJSONValue
deriving DecidableEq, Repr

/-- `ScalarNumeric.prototype.asDictInto_` (together with
`NumericBase.prototype.asDict`): `Infinity`, `-Infinity` and `NaN` become the
literal string tokens; finite values are stored as numbers. -/
def ScalarNumeric.asDict (s : ScalarNumeric) : ScalarDict :=
  { unit := s.unit
    value :=
      match s.value with
      | .posInf => .str "Infinity"
      | .negInf => .str "-Infinity"
      | .nan => .str "NaN"
      | .finite q => .num q }

/-- `ScalarNumeric.fromDict`: decodes the literal tokens back to their
sentinel values; any other string stays a non-number and makes the
`ScalarNumeric` constructor throw. -/
def ScalarNumeric.fromDict (d : ScalarDict) : Except String ScalarNumeric :=
  let decoded : Option JSNum :=
    match d.value with
    | .str s =>
      if s = "-Infinity" then some .negInf
      else if s = "Infinity" then some .posInf
      else if s = "NaN" then some .nan
      else none
    | .num q => some (.finite q)
  match decoded with
  | some v => .ok ⟨d.unit, v⟩
  | none => .error "Expected value to be number"

/-- A `NumericBase` operand: either a `ScalarNumeric` or a `Numeric`. -/
inductive NumericValue where
  | scalar (s : ScalarNumeric)
  | numeric (n : Numeric)
deriving DecidableEq, Repr

/-- The `unit` of a `NumericBase` operand. -/
def NumericValue.unit : NumericValue → VUnit
  | .scalar s => s.unit
  | .numeric n => n.unit

/-- The effective significance threshold: `opt_alpha || DEFAULT_ALPHA`, i.e.
a missing or zero (falsy) `alpha` argument is replaced by the default. -/
def effectiveAlpha (optAlpha : Option ℚ) : ℚ :=
  match optAlpha with
  | none => defaultAlpha
  | some a => if a = 0 then defaultAlpha else a

/-- `Numeric.prototype.getDifferenceSignificance`.  The Mann-Whitney U test
(`tr.b.Statistics.mwu.test`) is not under the provided sources; it is
modelled from the spec as a parameter `mwuP` giving the p-value of the
two-sample test over the two `sampleValues` reservoirs. -/
def Numeric.getDifferenceSignificance (n : Numeric) (other : NumericValue)
    (optAlpha : Option ℚ) (mwuP : List JSNum → List JSNum → ℚ) :
    Except String Significance :=
  if n.unit ≠ other.unit then
    .error "Cannot compare Numerics with different units"
  else if n.unit.improvementDirection = .dontCare then
    .ok .dontCare
  else
    match other with
    | .scalar _ => .error "Unable to compute a p-value"
    | .numeric m =>
      if mwuP n.sampleValues_ m.sampleValues_ < effectiveAlpha optAlpha then
        .ok .significant
      else .ok .insignificant

/-- Contiguous ascending bin layout: every bin has `lo ≤ hi` and consecutive
bins share a boundary (`b[i].hi = b[i+1].lo`).  This is the spec's §3 layout
invariant; every histogram produced by a builder satisfies it. -/
def binsContiguousB : List NumericBin → Bool
  | [] => true
  | [b] => decide (b.lo ≤ b.hi)
  | b :: b' :: rest =>
    (decide (b.lo ≤ b.hi) && decide (b.hi = b'.lo)) && binsContiguousB (b' :: rest)

/-- A unit used by the concrete examples. -/
def exUnit : VUnit := ⟨0, .higherIsBetter⟩

/-- A unit whose improvement direction is "don't care". -/
def dcUnit : VUnit := ⟨1, .dontCare⟩

/-- The builder state reached by `new NumericBuilder(exUnit, 0)` followed by
`addLinearBins(10, 2)`. -/
def exB : NumericBuilder := ⟨exUnit, [0, 5, 10]⟩

/-- The histogram built from `exB`: bins
`[-MAX_VALUE,0], [0,5], [5,10], [10,MAX_VALUE]`, all counts zero. -/
def exBuilt : Numeric := exB.build

/-- `exBuilt` after `add(7)`. -/
def cHist : Numeric := exBuilt.add (.finite 7) none

/-- A histogram over the don't-care unit. -/
def dcHist : Numeric := (NumericBuilder.mk dcUnit [0, 5, 10]).build

/-- Samples used by concrete `buildFromSamples` runs. -/
def exSamples : List JSNum := [.finite 2, .finite 5]


/-- The histogram `buildFromSamples(exUnit, [2, 5])` produces (two linear
bins over `[2,5]`, capacity raised to 1000, both samples added). -/
def exBFS : Numeric :=
  { unit := exUnit, rangeLo := 2, rangeHi := 5, numNans := 0,
    nanDiagnostics := [], running := ⟨[.finite 2, .finite 5]⟩, maxCount_ := 1,
    underflowBin := ⟨-maxJSValue, 2, 0, []⟩,
    centralBins := [⟨2, 7/2, 1, []⟩, ⟨7/2, 5, 0, []⟩],
    overflowBin := ⟨5, maxJSValue, 1, []⟩,
    sampleValues_ := [.finite 2, .finite 5], maxNumSampleValues := 1000,
    summaryOptions := defaultSummaryOptions }

lemma count_binAdd (b : NumericBin) (od : Option ℕ) :
    (b.add od).count = b.count + 1 := by
  cases od <;> simp [NumericBin.add]

lemma allBinsLength (n : Numeric) :
    n.allBins.length = n.centralBins.length + 2 := by
  simp [Numeric.allBins]

lemma foldlMaxComm (l : List ℕ) (m : ℕ) :
    l.foldl Nat.max m = Nat.max m (l.foldl Nat.max 0) := by
  induction l generalizing m with
  | nil => simp
  | cons a t ih =>
    simp only [List.foldl_cons]
    rw [ih (Nat.max m a), ih (Nat.max 0 a)]
    simp only [Nat.max_def]
    split_ifs <;> omega

lemma listMaxCons (a : ℕ) (t : List ℕ) :
    (a :: t).foldl Nat.max 0 = Nat.max a (t.foldl Nat.max 0) := by
  simp only [List.foldl_cons]
  rw [foldlMaxComm]
  simp only [Nat.max_def]
  split_ifs <;> omega

lemma foldlCountEqMax (l : List NumericBin) (m : ℕ) :
    l.foldl (fun m b => if b.count > m then b.count else m) m
      = (l.map NumericBin.count).foldl Nat.max m := by
  induction l generalizing m with
  | nil => rfl
  | cons a t ih =>
    simp only [List.foldl_cons, List.map_cons]
    have h : (if a.count > m then a.count else m) = Nat.max m a.count := by
      simp only [Nat.max_def]
      split_ifs <;> omega
    rw [h, ih]

lemma listMaxSetGe (l : List ℕ) (i : ℕ) (v : ℕ) (hi : i < l.length)
    (hv : l.getD i 0 ≤ v) :
    ((l.set i v).foldl Nat.max 0) = Nat.max (l.foldl Nat.max 0) v := by
  induction l generalizing i with
  | nil => simp at hi
  | cons a t ih =>
    cases i with
    | zero =>
      simp only [List.getD_cons_zero] at hv
      simp only [List.set]
      rw [listMaxCons, listMaxCons]
      simp only [Nat.max_def]
      split_ifs <;> omega
    | succ j =>
      simp only [List.getD_cons_succ] at hv
      simp only [List.set]
      rw [listMaxCons, listMaxCons, ih j (by simpa using hi) hv]
      simp only [Nat.max_def]
      split_ifs <;> omega

lemma mapSetEq {α β : Type} (f : α → β) (l : List α) (i : ℕ) (v : α) :
    (l.set i v).map f = (l.map f).set i (f v) := by
  induction l generalizing i with
  | nil => simp
  | cons a t ih => cases i <;> simp [List.set, ih]

lemma getDMapCount (l : List NumericBin) (i : ℕ) (h : i < l.length)
    (d : NumericBin) :
    (l.map NumericBin.count).getD i 0 = (l.getD i d).count := by
  induction l generalizing i with
  | nil => simp at h
  | cons a t ih =>
    cases i with
    | zero => simp
    | succ j => simpa using ih j (by simpa using h)

lemma setAppendLeft {α : Type} (c t : List α) (j : ℕ) (h : j < c.length)
    (b : α) : (c ++ t).set j b = c.set j b ++ t := by
  induction c generalizing j with
  | nil => simp at h
  | cons a cs ih =>
    cases j with
    | zero => simp [List.set]
    | succ k => simp [List.set, ih k (by simpa using h)]

lemma setAppendLast {α : Type} (c : List α) (o b : α) :
    (c ++ [o]).set c.length b = c ++ [b] := by
  induction c with
  | nil => simp
  | cons a cs ih => simp [List.set, ih]

lemma allBinsSetBinAt (n : Numeric) (i : ℕ) (b : NumericBin)
    (h : i < n.allBins.length) :
    (n.setBinAt i b).allBins = n.allBins.set i b := by
  have hlen := allBinsLength n
  unfold Numeric.setBinAt
  rcases i with _ | j
  · simp [Numeric.allBins, List.set]
  · have hj : j + 1 ≠ 0 := Nat.succ_ne_zero j
    by_cases hc : j + 1 < 1 + n.centralBins.length
    · rw [if_neg hj, if_pos hc]
      have hjc : j < n.centralBins.length := by omega
      simp only [Numeric.allBins, List.set]
      rw [setAppendLeft n.centralBins [n.overflowBin] j hjc b]
      simp
    · rw [if_neg hj, if_neg hc]
      have hje : j = n.centralBins.length := by omega
      subst hje
      simp only [Numeric.allBins, List.set]
      rw [setAppendLast]

lemma getBinIndexLt (n : Numeric) (v : JSNum) :
    n.getBinIndexForValue v < n.allBins.length := by
  have hlen := allBinsLength n
  simp only [Numeric.getBinIndexForValue]
  split
  · assumption
  · omega

lemma maxCountInvMk (u : VUnit) (lo hi : ℚ) (bi : BinInfo) :
    (mkNumeric u lo hi bi).MaxCountInv := by
  unfold Numeric.MaxCountInv Numeric.maxBinCount mkNumeric Numeric.allBins
  simp only
  rw [foldlCountEqMax]

lemma maxCountSetBinAt (n : Numeric) (i : ℕ) (b : NumericBin) :
    (n.setBinAt i b).maxCount_ = n.maxCount_ := by
  unfold Numeric.setBinAt
  split_ifs <;> rfl

lemma maxBinCountExt (a b : Numeric) (h2 : a.underflowBin = b.underflowBin)
    (h3 : a.centralBins = b.centralBins) (h4 : a.overflowBin = b.overflowBin) :
    a.maxBinCount = b.maxBinCount := by
  unfold Numeric.maxBinCount Numeric.allBins
  rw [h2, h3, h4]

lemma maxCountInvExt (a b : Numeric) (h1 : a.maxCount_ = b.maxCount_)
    (h2 : a.underflowBin = b.underflowBin) (h3 : a.centralBins = b.centralBins)
    (h4 : a.overflowBin = b.overflowBin) (h : b.MaxCountInv) : a.MaxCountInv := by
  unfold Numeric.MaxCountInv
  rw [h1, maxBinCountExt a b h2 h3 h4]
  exact h

lemma maxCountInvFromDict (d : NumericDict) : (Numeric.fromDict d).MaxCountInv := by
  obtain ⟨u, mn, mx, nn, nd, rn, so, sv, cap, ub, cb, ob⟩ := d
  cases rn <;> cases so <;> cases nd <;>
    exact maxCountInvExt _
      (mkNumeric u mn mx
        ⟨NumericBin.fromDict ub, cb.map NumericBin.fromDict,
          NumericBin.fromDict ob⟩)
      rfl rfl rfl rfl (maxCountInvMk _ _ _ _)

lemma maxCountInvAdd (n : Numeric) (v : JSNum) (od : Option ℕ)
    (h : n.MaxCountInv) : (n.add v od).MaxCountInv := by
  unfold Numeric.add
  by_cases hv : v.isNaNB
  · simp only [hv, if_true]
    cases od <;>
      simpa [Numeric.MaxCountInv, Numeric.maxBinCount, Numeric.allBins] using h
  · simp only [hv, Bool.false_eq_true, if_false]
    have hi : n.getBinIndexForValue v < n.allBins.length := getBinIndexLt n v
    have hmbc : (n.setBinAt (n.getBinIndexForValue v)
        ((n.binAt (n.getBinIndexForValue v)).add od)).maxBinCount
        = Nat.max n.maxBinCount ((n.binAt (n.getBinIndexForValue v)).add od).count := by
      unfold Numeric.maxBinCount
      rw [allBinsSetBinAt n _ _ hi, mapSetEq,
        listMaxSetGe _ _ _ (by simpa using hi)
          (by rw [getDMapCount n.allBins _ hi n.overflowBin, count_binAdd,
                Numeric.binAt]; omega)]
    unfold Numeric.MaxCountInv at h ⊢
    split_ifs with hgt
    · have hgt2 : ((n.binAt (n.getBinIndexForValue v)).add od).count
          > (n.setBinAt (n.getBinIndexForValue v)
              ((n.binAt (n.getBinIndexForValue v)).add od)).maxCount_ := hgt
      rw [maxCountSetBinAt, h] at hgt2
      show ((n.binAt (n.getBinIndexForValue v)).add od).count
        = (n.setBinAt (n.getBinIndexForValue v)
            ((n.binAt (n.getBinIndexForValue v)).add od)).maxBinCount
      rw [hmbc]
      simp only [Nat.max_def]
      split_ifs <;> omega
    · have hgt2 : ¬ (((n.binAt (n.getBinIndexForValue v)).add od).count
          > (n.setBinAt (n.getBinIndexForValue v)
              ((n.binAt (n.getBinIndexForValue v)).add od)).maxCount_) := hgt
      rw [maxCountSetBinAt, h] at hgt2
      show (n.setBinAt (n.getBinIndexForValue v)
          ((n.binAt (n.getBinIndexForValue v)).add od)).maxCount_
        = (n.setBinAt (n.getBinIndexForValue v)
            ((n.binAt (n.getBinIndexForValue v)).add od)).maxBinCount
      rw [maxCountSetBinAt, h, hmbc]
      simp only [Nat.max_def]
      split_ifs <;> omega

lemma addNumericMaxCount (n m r : Numeric) (h : n.addNumeric m = .ok r) :
    r.maxCount_ = n.maxCount_ := by
  unfold Numeric.addNumeric at h
  split at h
  · simp at h
  · cases hu : n.underflowBin.addBin m.underflowBin with
    | error e => rw [hu] at h; simp [Bind.bind, Except.bind] at h
    | ok u =>
      rw [hu] at h
      cases hc : zipAddBins n.centralBins m.centralBins with
      | error e => rw [hc] at h; simp [Bind.bind, Except.bind] at h
      | ok cs =>
        rw [hc] at h
        cases ho : n.overflowBin.addBin m.overflowBin with
        | error e => rw [ho] at h; simp [Bind.bind, Except.bind] at h
        | ok o =>
          rw [ho] at h
          simp only [Bind.bind, Except.bind, Except.ok.injEq] at h
          rw [← h]

lemma exBuiltEq : exBuilt =
    { unit := exUnit, rangeLo := 0, rangeHi := 10, numNans := 0,
      nanDiagnostics := [], running := ⟨[]⟩, maxCount_ := 0,
      underflowBin := ⟨-maxJSValue, 0, 0, []⟩,
      centralBins := [⟨0, 5, 0, []⟩, ⟨5, 10, 0, []⟩],
      overflowBin := ⟨10, maxJSValue, 0, []⟩,
      sampleValues_ := [], maxNumSampleValues := 40,
      summaryOptions := defaultSummaryOptions } := by
  norm_num [exBuilt, exB, NumericBuilder.build, NumericBuilder.minBinBoundary,
    NumericBuilder.maxBinBoundary, centralBinsOf, mkNumeric, RunningStatistics.empty]

lemma cHistEq : cHist =
    { unit := exUnit, rangeLo := 0, rangeHi := 10, numNans := 0,
      nanDiagnostics := [], running := ⟨[.finite 7]⟩, maxCount_ := 1,
      underflowBin := ⟨-maxJSValue, 0, 0, []⟩,
      centralBins := [⟨0, 5, 0, []⟩, ⟨5, 10, 1, []⟩],
      overflowBin := ⟨10, maxJSValue, 0, []⟩,
      sampleValues_ := [.finite 7], maxNumSampleValues := 40,
      summaryOptions := defaultSummaryOptions } := by
  rw [cHist, exBuiltEq]
  norm_num [Numeric.add, JSNum.isNaNB, Numeric.getBinIndexForValue, JSNum.ltB,
    Numeric.allBins, List.findIdx, List.findIdx.go, Numeric.binAt,
    Numeric.setBinAt, NumericBin.add, Numeric.numValues, uniformlySampleStream,
    RunningStatistics.add, List.set]

/-- **C1, counterexample.**  `cHist` is the histogram built by
`NumericBuilder(unit, 0).addLinearBins(10, 2).build()` after `add(7)`
(so its `[5,10]` bin holds one value and `maxCount_ = 1`).  Adding a
structurally identical copy of it via `addNumeric` yields a histogram whose
`[5,10]` bin count is `2`, yet whose cached `maxCount_` is still `1`:
`addNumeric` does not update the cache, so
`maxCount_ = max(bin.count for bin in allBins)` does **not** hold after every
mutating operation. -/
theorem c1_cached_max_bin_count_cex :
    (cHist.addNumeric cHist).map (fun r => (r.maxCount_, r.maxBinCount)) =
      .ok (1, 2) := by
  rw [cHistEq]
  norm_num [Numeric.addNumeric, Numeric.canAddNumeric, rangesEqB, Numeric.allBins,
    NumericBin.addBin, zipAddBins, mergeSampledStreams, Numeric.numValues,
    RunningStatistics.merge, Numeric.maxBinCount, maxDiagnostics, Bind.bind,
    Except.bind, Except.map]

/-- **C1 (amended).**  The cached maximum bin count `maxCount_` equals
`max(bin.count for bin in allBins)` after construction (hence after every
builder `build()`), after deserialization (`fromDict` recomputes it on load),
and it is maintained incrementally by `add`.  However `addNumeric` leaves
`maxCount_` unchanged (last conjunct), so the invariant is *not* maintained
by `addNumeric` (or by the exact-merge path of `merge`, which is
`clone` + `addNumeric`); it can understate the true maximum until the next
deserialization. -/
theorem c1_cached_max_bin_count_amended :
    (∀ (u : VUnit) (lo hi : ℚ) (bi : BinInfo), (mkNumeric u lo hi bi).MaxCountInv) ∧
    (∀ d : NumericDict, (Numeric.fromDict d).MaxCountInv) ∧
    (∀ (n : Numeric) (v : JSNum) (od : Option ℕ),
      n.MaxCountInv → (n.add v od).MaxCountInv) ∧
    (∀ n m r : Numeric, n.addNumeric m = .ok r → r.maxCount_ = n.maxCount_) :=
  ⟨maxCountInvMk, maxCountInvFromDict, maxCountInvAdd, addNumericMaxCount⟩

/-- **C1, witness.**  The `add`-preservation part of the amended claim at a
concrete input: `cHist` satisfies the cache invariant, and so does
`cHist.add 3`. -/
theorem c1_cached_max_bin_count_witness : (cHist.add (.finite 3) none).MaxCountInv :=
  c1_cached_max_bin_count_amended.2.2.1 cHist (.finite 3) none
    (by rw [cHistEq]; decide)

lemma mnsvSetBinAt (n : Numeric) (i : ℕ) (b : NumericBin) :
    (n.setBinAt i b).maxNumSampleValues = n.maxNumSampleValues := by
  unfold Numeric.setBinAt
  split_ifs <;> rfl

lemma addMaxNumSampleValues (n : Numeric) (v : JSNum) (od : Option ℕ) :
    (n.add v od).maxNumSampleValues = n.maxNumSampleValues := by
  unfold Numeric.add
  by_cases hv : v.isNaNB
  · simp only [hv, if_true]
    cases od <;> rfl
  · simp only [hv, Bool.false_eq_true, if_false]
    split_ifs <;>
      exact mnsvSetBinAt n (n.getBinIndexForValue v)
        ((n.binAt (n.getBinIndexForValue v)).add od)

lemma foldlAddMaxNumSampleValues (l : List JSNum) (n : Numeric) :
    (l.foldl (fun n s => n.add s none) n).maxNumSampleValues
      = n.maxNumSampleValues := by
  induction l generalizing n with
  | nil => rfl
  | cons a t ih => rw [List.foldl_cons, ih, addMaxNumSampleValues]

lemma buildMaxNumSampleValues (bld : NumericBuilder) :
    bld.build.maxNumSampleValues = 10 * (bld.build.allBins.length : ℚ) := by
  unfold NumericBuilder.build mkNumeric Numeric.allBins
  simp [mul_comm]

lemma buildFromSamplesCap (u : VUnit) (samples : List JSNum) (r : Numeric)
    (h : Numeric.buildFromSamples u samples = .ok r) :
    r.maxNumSampleValues = 1000 := by
  unfold Numeric.buildFromSamples at h
  dsimp only at h
  split at h
  · split at h
    · simp at h
    · rw [Except.ok.injEq] at h
      rw [← h, foldlAddMaxNumSampleValues]
  · simp at h

/-- **C2, counterexample.**  The histogram built from the explicit layout
`NumericBuilder(unit, 0).addLinearBins(10, 2).build()` has 4 bins, and its
sample-reservoir capacity is `allBins.length * 10 = 40`, not the claimed
`16 × number of bins = 64`. -/
theorem c2_sample_capacity_cex :
    exBuilt.maxNumSampleValues = 40 ∧ exBuilt.allBins.length = 4 ∧
      (40 : ℚ) ≠ 16 * 4 := by
  refine ⟨?_, ?_, by norm_num⟩
  · rw [exBuiltEq]
  · rw [exBuiltEq]; rfl

/-- **C2 (amended).**  For every Histogram created via an explicit bin-layout
builder's `build()`, the sample-values reservoir capacity defaults to **10**
times the number of bins (underflow + central + overflow); when built
directly from raw samples via `buildFromSamples`, it is overridden to the
larger bound 1000. -/
theorem c2_sample_capacity_amended :
    (∀ bld : NumericBuilder,
      bld.build.maxNumSampleValues = 10 * (bld.build.allBins.length : ℚ)) ∧
    (∀ (u : VUnit) (samples : List JSNum) (r : Numeric),
      Numeric.buildFromSamples u samples = .ok r →
        r.maxNumSampleValues = 1000) :=
  ⟨buildMaxNumSampleValues, buildFromSamplesCap⟩

/-- **C2, witness.**  The amended claim at concrete inputs: the 4-bin example
layout gets capacity `10 * 4 = 40`, and `buildFromSamples(unit, [2,5])` gets
capacity 1000. -/
theorem c2_sample_capacity_witness :
    exBuilt.maxNumSampleValues = 10 * (exBuilt.allBins.length : ℚ) ∧
    exBFS.maxNumSampleValues = 1000 :=
  ⟨c2_sample_capacity_amended.1 exB,
   c2_sample_capacity_amended.2 exUnit exSamples exBFS (by
    norm_num [Numeric.buildFromSamples, exSamples, exBFS, exUnit, JSRange.empty,
      JSRange.addValue, JSNum.isNaNB, JSNum.minJ, JSNum.maxJ, JSNum.sub,
      natCeilSqrt, NumericBuilder.new, NumericBuilder.addLinearBins,
      NumericBuilder.maxBinBoundary, NumericBuilder.addBinBoundary,
      addLinearLoop, NumericBuilder.build, NumericBuilder.minBinBoundary,
      centralBinsOf, mkNumeric, RunningStatistics.empty, Numeric.add,
      Numeric.getBinIndexForValue, JSNum.ltB, Numeric.allBins, List.findIdx,
      List.findIdx.go, Numeric.binAt, Numeric.setBinAt, NumericBin.add,
      Numeric.numValues, uniformlySampleStream, RunningStatistics.add,
      List.set, maxJSValue])⟩

/-- **C3, counterexample.**  `getDifferenceSignificance` checks the
improvement direction *before* checking that `other` is a `Numeric`: with
equal units whose direction is don't-care, a plain Scalar operand does not
throw — the call returns `DONT_CARE`.  This falsifies "throws an error
whenever `other` is not a Histogram". -/
theorem c3_significance_order_cex :
    Numeric.getDifferenceSignificance dcHist (.scalar ⟨dcUnit, .finite 5⟩) none
      (fun _ _ => 0) = .ok .dontCare := rfl

/-- **C3 (amended).**  `getDifferenceSignificance(other, alpha)` throws when
the units differ.  With equal units it returns `DONT_CARE` whenever the
unit's improvement direction is don't-care — even when `other` is not a
Histogram.  Otherwise it throws when `other` is not a Histogram, and
otherwise returns `SIGNIFICANT` exactly when the two-sample test's p-value
over the two `sampleValues` reservoirs is below the effective alpha (the
`alpha` argument, with a missing or zero alpha replaced by the default 0.05),
and `INSIGNIFICANT` otherwise. -/
theorem c3_significance_amended (n : Numeric) (other : NumericValue)
    (optAlpha : Option ℚ) (mwuP : List JSNum → List JSNum → ℚ) :
    (n.unit ≠ other.unit →
      n.getDifferenceSignificance other optAlpha mwuP =
        .error "Cannot compare Numerics with different units") ∧
    (n.unit = other.unit → n.unit.improvementDirection = .dontCare →
      n.getDifferenceSignificance other optAlpha mwuP = .ok .dontCare) ∧
    (∀ s : ScalarNumeric, n.unit = other.unit →
      n.unit.improvementDirection ≠ .dontCare → other = .scalar s →
      n.getDifferenceSignificance other optAlpha mwuP =
        .error "Unable to compute a p-value") ∧
    (∀ m : Numeric, n.unit = other.unit →
      n.unit.improvementDirection ≠ .dontCare → other = .numeric m →
      n.getDifferenceSignificance other optAlpha mwuP =
        .ok (if mwuP n.sampleValues_ m.sampleValues_ < effectiveAlpha optAlpha
          then .significant else .insignificant)) := by
  refine ⟨?_, ?_, ?_, ?_⟩
  · intro h
    unfold Numeric.getDifferenceSignificance
    rw [if_pos h]
  · intro h hd
    unfold Numeric.getDifferenceSignificance
    rw [if_neg (not_not_intro h), if_pos hd]
  · intro s h hd hs
    subst hs
    unfold Numeric.getDifferenceSignificance
    rw [if_neg (not_not_intro h), if_neg hd]
  · intro m h hd hm
    subst hm
    unfold Numeric.getDifferenceSignificance
    rw [if_neg (not_not_intro h), if_neg hd]
    show (if mwuP n.sampleValues_ m.sampleValues_ < effectiveAlpha optAlpha
      then (.ok .significant : Except String Significance)
      else .ok .insignificant) = _
    split_ifs <;> rfl

/-- **C3, witness.**  The amended claim's last conjunct at a concrete input:
comparing `cHist` against itself with a p-value of 1/100 and no explicit
alpha reports `SIGNIFICANT` (1/100 < 0.05). -/
theorem c3_significance_witness :
    cHist.getDifferenceSignificance (.numeric cHist) none (fun _ _ => 1 / 100)
      = .ok .significant := by
  have h := (c3_significance_amended cHist (.numeric cHist) none
    (fun _ _ => 1 / 100)).2.2.2 cHist rfl (by rw [cHistEq]; decide) rfl
  rw [h]
  norm_num [effectiveAlpha, defaultAlpha]

/-- **C6.**  `NumericBuilder(unit, 0).addLinearBins(10, 2)` reaches the
boundary list `[0, 5, 10]`; `build()` yields exactly four bins, in order the
underflow bin `[-MAX_VALUE, 0]`, central bins `[0, 5]` and `[5, 10]`, and
the overflow bin `[10, MAX_VALUE]`, all counts zero (the spec's glossary
defines the underflow/overflow bins as "extending to the representable
numeric extremes", i.e. `∓Number.MAX_VALUE`, which is how the source
represents the claim's `∓infinity` endpoints).  Adding `7` increments the
`[5, 10]` bin's count to 1 and leaves every other bin's count at 0. -/
theorem c6_linear_layout_scenario :
    (NumericBuilder.new exUnit 0).addLinearBins 10 2 = .ok exB ∧
    exBuilt.allBins.map (fun b => (b.lo, b.hi, b.count)) =
      [(-maxJSValue, 0, 0), (0, 5, 0), (5, 10, 0), (10, maxJSValue, 0)] ∧
    cHist.allBins.map (fun b => (b.lo, b.hi, b.count)) =
      [(-maxJSValue, 0, 0), (0, 5, 0), (5, 10, 1), (10, maxJSValue, 0)] := by
  refine ⟨?_, ?_, ?_⟩
  · norm_num [NumericBuilder.new, NumericBuilder.addLinearBins,
      NumericBuilder.maxBinBoundary, NumericBuilder.addBinBoundary,
      addLinearLoop, exB, exUnit]
  · rw [exBuiltEq]
    norm_num [Numeric.allBins]
  · rw [cHistEq]
    norm_num [Numeric.allBins]

/-- **C8.**  Scalar serialization encodes `+Infinity`, `-Infinity` and `NaN`
as the literal string tokens `"Infinity"`, `"-Infinity"`, `"NaN"`, and every
finite value as a number; deserializing the serialized form restores the
same value (`NaN` maps back to `NaN`) and the same unit: a round trip. -/
theorem c8_scalar_roundtrip (s : ScalarNumeric) :
    (s.value = .posInf → s.asDict.value = .str "Infinity") ∧
    (s.value = .negInf → s.asDict.value = .str "-Infinity") ∧
    (s.value = .nan → s.asDict.value = .str "NaN") ∧
    (∀ q : ℚ, s.value = .finite q → s.asDict.value = .num q) ∧
    ScalarNumeric.fromDict s.asDict = .ok s := by
  obtain ⟨u, v⟩ := s
  cases v <;>
    refine ⟨?_, ?_, ?_, ?_, ?_⟩ <;>
      simp [ScalarNumeric.asDict, ScalarNumeric.fromDict]

/-- **C8, witness.**  The round trip at the concrete scalar `NaN`: it is
serialized as the token `"NaN"` and restored exactly. -/
theorem c8_scalar_roundtrip_witness :
    (ScalarNumeric.mk exUnit .nan).asDict.value = .str "NaN" ∧
    ScalarNumeric.fromDict (ScalarNumeric.mk exUnit .nan).asDict =
      .ok ⟨exUnit, .nan⟩ :=
  ⟨(c8_scalar_roundtrip ⟨exUnit, .nan⟩).2.2.1 rfl,
   (c8_scalar_roundtrip ⟨exUnit, .nan⟩).2.2.2.2⟩

/-- **C9.**  `buildFromSamples` on an empty sample list throws: the empty
range is widened to `[0, 1]`, but the auto layout asks for
`ceil(sqrt(0)) = 0` bins and `addLinearBins` rejects a non-positive bin
count, so the call fails with "Bin count must be positive" rather than
returning an empty histogram. -/
theorem c9_build_from_samples_empty (u : VUnit) :
    Numeric.buildFromSamples u [] = .error "Bin count must be positive" := rfl

/-- **C9, witness.**  The statement at a concrete unit. -/
theorem c9_build_from_samples_empty_witness :
    Numeric.buildFromSamples exUnit [] = .error "Bin count must be positive" :=
  c9_build_from_samples_empty exUnit

/-- **C10.**  Passing an explicit `alpha` of `0` does not make every result
insignificant: `opt_alpha || DEFAULT_ALPHA` replaces the falsy `0` by the
default `0.05`, so with equal units, a defined improvement direction and a
Histogram operand, a p-value below `0.05` is still reported `SIGNIFICANT`. -/
theorem c10_alpha_zero_uses_default (n m : Numeric)
    (mwuP : List JSNum → List JSNum → ℚ) (hu : n.unit = m.unit)
    (hd : n.unit.improvementDirection ≠ .dontCare)
    (hp : mwuP n.sampleValues_ m.sampleValues_ < defaultAlpha) :
    n.getDifferenceSignificance (.numeric m) (some 0) mwuP =
      .ok .significant := by
  unfold Numeric.getDifferenceSignificance
  simp only [NumericValue.unit]
  rw [if_neg (not_not_intro hu), if_neg hd]
  show (if mwuP n.sampleValues_ m.sampleValues_ < effectiveAlpha (some 0)
    then (.ok .significant : Except String Significance)
    else .ok .insignificant) = _
  have he : effectiveAlpha (some 0) = defaultAlpha := by
    simp [effectiveAlpha]
  rw [he, if_pos hp]

/-- **C10, witness.**  With `alpha = 0` and a p-value of `1/100`, comparing
`cHist` against itself reports `SIGNIFICANT`. -/
theorem c10_alpha_zero_witness :
    cHist.getDifferenceSignificance (.numeric cHist) (some 0)
      (fun _ _ => 1 / 100) = .ok .significant :=
  c10_alpha_zero_uses_default cHist cHist (fun _ _ => 1 / 100) rfl
    (by rw [cHistEq]; decide) (by norm_num [defaultAlpha])

lemma rangesEqBLength (as bs : List NumericBin) (h : rangesEqB as bs = true) :
    as.length = bs.length := by
  induction as generalizing bs with
  | nil =>
    cases bs with
    | nil => rfl
    | cons b t => simp [rangesEqB] at h
  | cons a t ih =>
    cases bs with
    | nil => simp [rangesEqB] at h
    | cons b u =>
      simp only [rangesEqB, Bool.and_eq_true] at h
      simp [ih u h.2]

lemma rangesEqBAppend (xs xs' ys ys' : List NumericBin)
    (h : xs.length = xs'.length) :
    rangesEqB (xs ++ ys) (xs' ++ ys')
      = (rangesEqB xs xs' && rangesEqB ys ys') := by
  induction xs generalizing xs' with
  | nil =>
    cases xs' with
    | nil => simp [rangesEqB]
    | cons b t => simp at h
  | cons a t ih =>
    cases xs' with
    | nil => simp at h
    | cons b u =>
      simp only [List.cons_append, rangesEqB, List.append_eq]
      rw [ih u (by simpa using h)]
      simp [Bool.and_assoc]

lemma zipAppendEq {α β : Type} (as : List α) (bs : List β) (as' : List α)
    (bs' : List β) (h : as.length = bs.length) :
    (as ++ as').zip (bs ++ bs') = as.zip bs ++ as'.zip bs' := by
  induction as generalizing bs with
  | nil =>
    cases bs with
    | nil => simp
    | cons b t => simp at h
  | cons a t ih =>
    cases bs with
    | nil => simp at h
    | cons b u => simp [List.zip_cons_cons, ih u (by simpa using h)]

lemma addBinOk (a b : NumericBin) (h1 : a.lo = b.lo) (h2 : a.hi = b.hi) :
    a.addBin b = .ok { a with
      diagnostics := mergeSampledStreams a.diagnostics (a.count : ℚ)
        b.diagnostics (b.count : ℚ) maxDiagnostics,
      count := a.count + b.count } := by
  unfold NumericBin.addBin
  rw [if_neg (not_not_intro ⟨h1, h2⟩)]

lemma zipAddBinsOk (as bs : List NumericBin) (h : rangesEqB as bs = true) :
    ∃ cs, zipAddBins as bs = .ok cs ∧
      cs.map NumericBin.count
        = (as.zip bs).map (fun p => p.1.count + p.2.count) := by
  induction as generalizing bs with
  | nil =>
    cases bs with
    | nil => exact ⟨[], rfl, rfl⟩
    | cons b t => simp [rangesEqB] at h
  | cons a t ih =>
    cases bs with
    | nil => simp [rangesEqB] at h
    | cons b u =>
      simp only [rangesEqB, Bool.and_eq_true, decide_eq_true_eq] at h
      obtain ⟨⟨h1, h2⟩, hrest⟩ := h
      obtain ⟨cs, hcs, hcnt⟩ := ih u hrest
      refine ⟨{ a with
          diagnostics := mergeSampledStreams a.diagnostics (a.count : ℚ)
            b.diagnostics (b.count : ℚ) maxDiagnostics,
          count := a.count + b.count } :: cs, ?_, ?_⟩
      · unfold zipAddBins
        rw [addBinOk a b h1 h2]
        simp only [Bind.bind, Except.bind, hcs]
      · simp [List.zip_cons_cons, hcnt]

lemma canAddRangesEqB (n other : Numeric)
    (h : n.canAddNumeric other = true) :
    rangesEqB n.allBins other.allBins = true := by
  unfold Numeric.canAddNumeric at h
  split_ifs at h
  exact h

/-- **C5.**  `addNumeric(other)` throws exactly when `canAddNumeric(other)`
is false (first conjunct and converse); the `canAddNumeric` guard runs before
any mutation in the source, which this pure embedding mirrors: an `error`
result carries no partial state, so a failing call leaves the receiver's bin
counts, `numNans`, reservoirs and running statistics untouched.  When it
succeeds it fully applies: every corresponding bin pair is combined (the
result's bin counts are the pairwise sums over `allBins`), `numNans` are
summed, and the running statistics are merged. -/
theorem c5_add_numeric_all_or_nothing (n other : Numeric) :
    (n.canAddNumeric other = false →
      n.addNumeric other = .error "Merging incompatible Numerics.") ∧
    (n.canAddNumeric other = true →
      ∃ r, n.addNumeric other = .ok r ∧
        r.allBins.map NumericBin.count =
          (n.allBins.zip other.allBins).map (fun p => p.1.count + p.2.count) ∧
        r.numNans = n.numNans + other.numNans ∧
        r.running = n.running.merge other.running) := by
  constructor
  · intro h
    unfold Numeric.addNumeric
    rw [if_pos (by simp [h])]
  · intro h
    have hr : rangesEqB n.allBins other.allBins = true := canAddRangesEqB n other h
    simp only [Numeric.allBins, rangesEqB, Bool.and_eq_true,
      decide_eq_true_eq] at hr
    obtain ⟨⟨hu1, hu2⟩, hrest⟩ := hr
    have hlenc : n.centralBins.length = other.centralBins.length := by
      have hl := rangesEqBLength _ _ hrest
      simpa using hl
    rw [rangesEqBAppend _ _ _ _ hlenc] at hrest
    simp only [Bool.and_eq_true] at hrest
    obtain ⟨hcent, hover⟩ := hrest
    have hoeq : n.overflowBin.lo = other.overflowBin.lo ∧
        n.overflowBin.hi = other.overflowBin.hi := by
      simpa [rangesEqB] using hover
    obtain ⟨cs, hcs, hcnt⟩ := zipAddBinsOk _ _ hcent
    have hok : n.addNumeric other = .ok { n with
        nanDiagnostics := mergeSampledStreams n.nanDiagnostics (n.numNans : ℚ)
          other.nanDiagnostics (other.numNans : ℚ) maxDiagnostics
        sampleValues_ := mergeSampledStreams n.sampleValues_ (n.numValues : ℚ)
          other.sampleValues_ (other.numValues : ℚ)
          ((n.maxNumSampleValues + other.maxNumSampleValues) / 2)
        numNans := n.numNans + other.numNans
        running := n.running.merge other.running
        underflowBin := { n.underflowBin with
          diagnostics := mergeSampledStreams n.underflowBin.diagnostics
            (n.underflowBin.count : ℚ) other.underflowBin.diagnostics
            (other.underflowBin.count : ℚ) maxDiagnostics
          count := n.underflowBin.count + other.underflowBin.count }
        centralBins := cs
        overflowBin := { n.overflowBin with
          diagnostics := mergeSampledStreams n.overflowBin.diagnostics
            (n.overflowBin.count : ℚ) other.overflowBin.diagnostics
            (other.overflowBin.count : ℚ) maxDiagnostics
          count := n.overflowBin.count + other.overflowBin.count } } := by
      unfold Numeric.addNumeric
      rw [if_neg (by simp [h]), addBinOk _ _ hu1 hu2, addBinOk _ _ hoeq.1 hoeq.2]
      simp only [Bind.bind, Except.bind, hcs]
    refine ⟨_, hok, ?_, rfl, rfl⟩
    simp only [Numeric.allBins, List.map_cons, List.map_append,
      List.zip_cons_cons, zipAppendEq _ _ _ _ hlenc, hcnt]
    simp

/-- **C5, witness.**  The success side at a concrete input: `cHist` can be
added to itself, and the combined result doubles the bin counts, sums the
NaN counts, and merges the running statistics. -/
theorem c5_add_numeric_witness :
    ∃ r, cHist.addNumeric cHist = .ok r ∧
      r.allBins.map NumericBin.count =
        (cHist.allBins.zip cHist.allBins).map (fun p => p.1.count + p.2.count) ∧
      r.numNans = cHist.numNans + cHist.numNans ∧
      r.running = cHist.running.merge cHist.running :=
  (c5_add_numeric_all_or_nothing cHist cHist).2 (by
    rw [cHistEq]
    norm_num [Numeric.canAddNumeric, rangesEqB, Numeric.allBins])

lemma walkBinsSomeSpec (l : List NumericBin) (skip : ℤ) (i : ℕ)
    (h : Numeric.walkBins l skip = some i) :
    i < l.length ∧
    skip < (((l.map NumericBin.count).take (i + 1)).sum : ℤ) ∧
    ∀ j < i, (((l.map NumericBin.count).take (j + 1)).sum : ℤ) ≤ skip := by
  induction l generalizing skip i with
  | nil => simp [Numeric.walkBins] at h
  | cons b t ih =>
    simp only [Numeric.walkBins] at h
    by_cases hneg : skip - (b.count : ℤ) < 0
    · rw [if_pos hneg] at h
      simp only [Option.some.injEq] at h
      subst h
      refine ⟨by simp, ?_, by omega⟩
      simp only [List.map_cons, List.take_succ_cons, List.take_zero,
        List.sum_cons, List.sum_nil]
      push_cast
      omega
    · rw [if_neg hneg] at h
      rw [Option.map_eq_some'] at h
      obtain ⟨i', hw, hi'⟩ := h
      obtain ⟨hlt, hsum, hmin⟩ := ih (skip - (b.count : ℤ)) i' hw
      subst hi'
      refine ⟨by simpa using Nat.succ_lt_succ hlt, ?_, ?_⟩
      · simp only [List.map_cons, List.take_succ_cons, List.sum_cons]
        push_cast at hsum ⊢
        omega
      · intro j hj
        cases j with
        | zero =>
          simp only [List.map_cons, List.take_succ_cons, List.take_zero,
            List.sum_cons, List.sum_nil]
          push_cast
          omega
        | succ j' =>
          have hj' : j' < i' := by omega
          have := hmin j' hj'
          simp only [List.map_cons, List.take_succ_cons, List.sum_cons]
          push_cast at this ⊢
          omega

lemma walkBinsTotal (l : List NumericBin) (skip : ℤ) (h0 : 0 ≤ skip)
    (hlt : skip < ((l.map NumericBin.count).sum : ℤ)) :
    ∃ i, Numeric.walkBins l skip = some i := by
  induction l generalizing skip with
  | nil => simp at hlt; omega
  | cons b t ih =>
    simp only [Numeric.walkBins]
    by_cases hneg : skip - (b.count : ℤ) < 0
    · exact ⟨0, by rw [if_pos hneg]⟩
    · have hlt' : skip - (b.count : ℤ) < ((t.map NumericBin.count).sum : ℤ) := by
        simp only [List.map_cons, List.sum_cons] at hlt
        push_cast at hlt ⊢
        omega
      obtain ⟨i, hi⟩ := ih (skip - (b.count : ℤ)) (by omega) hlt'
      exact ⟨i + 1, by rw [if_neg hneg, hi]; rfl⟩

/-- **C4.**  `getApproximatePercentile(p)`: throws when `p ∉ [0,1]`; returns
`0` when the histogram holds no numeric values; otherwise, with
`skip = ⌊(numValues − 1) · p⌋`, the walk over `allBins` stops at the first
position `i` whose cumulative count exceeds `skip` (that is exactly "subtract
each bin's count from `skip` until it goes negative"), and the result is that
bin's reported value — `range.max` for the underflow bin, `range.min` for the
overflow bin, the range midpoint for a central bin (`Numeric.binOutValue`). -/
theorem c4_percentile_spec (n : Numeric) (p : ℚ) :
    (¬ (0 ≤ p ∧ p ≤ 1) →
      n.getApproximatePercentile p = .error "percent must be [0,1]") ∧
    (0 ≤ p → p ≤ 1 → n.numValues = 0 →
      n.getApproximatePercentile p = .ok 0) ∧
    (0 ≤ p → p ≤ 1 → 0 < n.numValues →
      ∃ i, i < n.allBins.length ∧
        ⌊((n.numValues : ℚ) - 1) * p⌋ <
          (((n.allBins.map NumericBin.count).take (i + 1)).sum : ℤ) ∧
        (∀ j < i,
          (((n.allBins.map NumericBin.count).take (j + 1)).sum : ℤ) ≤
            ⌊((n.numValues : ℚ) - 1) * p⌋) ∧
        n.getApproximatePercentile p = .ok (n.binOutValue i)) := by
  refine ⟨?_, ?_, ?_⟩
  · intro h
    unfold Numeric.getApproximatePercentile
    rw [if_pos h]
  · intro h0 h1 hz
    unfold Numeric.getApproximatePercentile
    rw [if_neg (not_not_intro ⟨h0, h1⟩), if_pos hz]
  · intro h0 h1 hpos
    have hq0 : (0 : ℚ) ≤ ((n.numValues : ℚ) - 1) * p := by
      have hN : (1 : ℚ) ≤ (n.numValues : ℚ) := by
        exact_mod_cast Nat.one_le_iff_ne_zero.mpr (by omega)
      apply mul_nonneg (by linarith) h0
    have hs0 : 0 ≤ ⌊((n.numValues : ℚ) - 1) * p⌋ := by
      exact Int.floor_nonneg.mpr hq0
    have hslt : ⌊((n.numValues : ℚ) - 1) * p⌋ <
        ((n.allBins.map NumericBin.count).sum : ℤ) := by
      have hle : ((n.numValues : ℚ) - 1) * p ≤ (n.numValues : ℚ) - 1 := by
        have hN : (1 : ℚ) ≤ (n.numValues : ℚ) := by
          exact_mod_cast Nat.one_le_iff_ne_zero.mpr (by omega)
        nlinarith
      have h2 : ⌊((n.numValues : ℚ) - 1)⌋ = (n.numValues : ℤ) - 1 := by
        rw [show ((n.numValues : ℚ) - 1) = (((n.numValues : ℤ) - 1 : ℤ) : ℚ)
          from by push_cast; ring, Int.floor_intCast]
      have hfl : ⌊((n.numValues : ℚ) - 1) * p⌋ ≤ (n.numValues : ℤ) - 1 :=
        le_trans (Int.floor_le_floor hle) (le_of_eq h2)
      have hsum : ((n.allBins.map NumericBin.count).sum : ℤ)
          = (n.numValues : ℤ) := by
        unfold Numeric.numValues
        push_cast
        ring
      omega
    obtain ⟨i, hi⟩ := walkBinsTotal n.allBins _ hs0 hslt
    obtain ⟨hlt, hsum, hmin⟩ := walkBinsSomeSpec n.allBins _ i hi
    refine ⟨i, hlt, hsum, hmin, ?_⟩
    unfold Numeric.getApproximatePercentile
    rw [if_neg (not_not_intro ⟨h0, h1⟩), if_neg (by omega), hi]

/-- **C4, witness.**  The non-degenerate branch at a concrete input: the
median query on `cHist` (one recorded value) stops at a bin index whose
cumulative count exceeds `skip = 0` and reports that bin's value. -/
theorem c4_percentile_witness :
    ∃ i, i < cHist.allBins.length ∧
      ⌊((cHist.numValues : ℚ) - 1) * (1 / 2)⌋ <
        (((cHist.allBins.map NumericBin.count).take (i + 1)).sum : ℤ) ∧
      (∀ j < i,
        (((cHist.allBins.map NumericBin.count).take (j + 1)).sum : ℤ) ≤
          ⌊((cHist.numValues : ℚ) - 1) * (1 / 2)⌋) ∧
      cHist.getApproximatePercentile (1 / 2) = .ok (cHist.binOutValue i) :=
  (c4_percentile_spec cHist (1 / 2)).2.2 (by norm_num) (by norm_num)
    (by rw [cHistEq]; decide)

lemma contiguousLoLe (l : List NumericBin) (hc : binsContiguousB l = true) :
    ∀ i, i < l.length → ∀ d : NumericBin, (l.getD i d).lo ≤ (l.getD i d).hi := by
  induction l with
  | nil => intro i hi; simp at hi
  | cons b t ih =>
    cases t with
    | nil =>
      intro i hi d
      have h0 : i = 0 := by simpa using hi
      subst h0
      simpa [binsContiguousB] using hc
    | cons b' u =>
      simp only [binsContiguousB, Bool.and_eq_true, decide_eq_true_eq] at hc
      intro i hi d
      cases i with
      | zero => simpa using hc.1.1
      | succ j =>
        exact ih (by simp [binsContiguousB, hc.2]) j (by simpa using hi) d

lemma contiguousAdj (l : List NumericBin) (hc : binsContiguousB l = true) :
    ∀ i, i + 1 < l.length → ∀ d : NumericBin,
      (l.getD i d).hi = (l.getD (i + 1) d).lo := by
  induction l with
  | nil => intro i hi; simp at hi
  | cons b t ih =>
    cases t with
    | nil => intro i hi; simp at hi
    | cons b' u =>
      simp only [binsContiguousB, Bool.and_eq_true, decide_eq_true_eq] at hc
      intro i hi d
      cases i with
      | zero => simpa using hc.1.2
      | succ j =>
        exact ih (by simp [binsContiguousB, hc.2]) j (by simpa using hi) d

lemma binOutValueStep (n : Numeric) (hc : binsContiguousB n.allBins = true)
    (i : ℕ) (hi : i + 1 < n.allBins.length) :
    n.binOutValue i ≤ n.binOutValue (i + 1) := by
  have hlen := allBinsLength n
  have hlo := contiguousLoLe n.allBins hc
  have hadj := contiguousAdj n.allBins hc
  unfold Numeric.binOutValue
  by_cases h0 : i = 0
  · subst h0
    rw [if_pos rfl, if_neg (by omega : ¬ (0 + 1 = 0))]
    have he : (n.allBins.getD 0 n.overflowBin).hi
        = (n.allBins.getD 1 n.overflowBin).lo := hadj 0 (by omega) n.overflowBin
    by_cases hlast : 0 + 1 = n.allBins.length - 1
    · rw [if_pos hlast]
      simpa using le_of_eq he
    · rw [if_neg hlast]
      have hl := hlo 1 (by omega) n.overflowBin
      simp only [Nat.zero_add] at he ⊢
      linarith
  · rw [if_neg h0, if_neg (by omega : ¬ (i + 1 = 0)),
      if_neg (by omega : ¬ (i = n.allBins.length - 1))]
    have hli := hlo i (by omega) n.overflowBin
    have he : (n.allBins.getD i n.overflowBin).hi
        = (n.allBins.getD (i + 1) n.overflowBin).lo := hadj i hi n.overflowBin
    by_cases hlast : i + 1 = n.allBins.length - 1
    · rw [if_pos hlast]
      linarith
    · rw [if_neg hlast]
      have hl := hlo (i + 1) (by omega) n.overflowBin
      linarith

lemma binOutValueMono (n : Numeric) (hc : binsContiguousB n.allBins = true)
    (i : ℕ) : ∀ j, i ≤ j → j < n.allBins.length →
      n.binOutValue i ≤ n.binOutValue j := by
  intro j
  induction j with
  | zero =>
    intro hij _
    have h0 : i = 0 := Nat.le_zero.mp hij
    subst h0
    exact le_refl _
  | succ k ih =>
    intro hij hk
    rcases Nat.eq_or_lt_of_le hij with he | hl
    · rw [he]
    · exact le_trans (ih (by omega) (by omega)) (binOutValueStep n hc k hk)

/-- **C7.**  For a fixed histogram whose bin layout is contiguous and
ascending (the spec's §3 layout invariant, true of every built histogram),
`getApproximatePercentile` is non-decreasing in its argument: for
`0 ≤ p1 ≤ p2 ≤ 1`, whatever values the two calls return satisfy `v1 ≤ v2`. -/
theorem c7_percentile_monotone (n : Numeric)
    (hc : binsContiguousB n.allBins = true) (p1 p2 : ℚ) (h0 : 0 ≤ p1)
    (h12 : p1 ≤ p2) (h21 : p2 ≤ 1) (v1 v2 : ℚ)
    (h1 : n.getApproximatePercentile p1 = .ok v1)
    (h2 : n.getApproximatePercentile p2 = .ok v2) : v1 ≤ v2 := by
  unfold Numeric.getApproximatePercentile at h1 h2
  rw [if_neg (not_not_intro ⟨h0, le_trans h12 h21⟩)] at h1
  rw [if_neg (not_not_intro ⟨le_trans h0 h12, h21⟩)] at h2
  by_cases hz : n.numValues = 0
  · rw [if_pos hz] at h1 h2
    simp only [Except.ok.injEq] at h1 h2
    rw [← h1, ← h2]
  · rw [if_neg hz] at h1 h2
    have hs12 : ⌊((n.numValues : ℚ) - 1) * p1⌋ ≤ ⌊((n.numValues : ℚ) - 1) * p2⌋ := by
      apply Int.floor_le_floor
      have hN : (1 : ℚ) ≤ (n.numValues : ℚ) := by
        exact_mod_cast Nat.one_le_iff_ne_zero.mpr hz
      nlinarith
    cases hw1 : Numeric.walkBins n.allBins ⌊((n.numValues : ℚ) - 1) * p1⌋ with
    | none => rw [hw1] at h1; simp at h1
    | some i1 =>
      cases hw2 : Numeric.walkBins n.allBins ⌊((n.numValues : ℚ) - 1) * p2⌋ with
      | none => rw [hw2] at h2; simp at h2
      | some i2 =>
        rw [hw1] at h1
        rw [hw2] at h2
        simp only [Except.ok.injEq] at h1 h2
        obtain ⟨hl1, hsum1, hmin1⟩ := walkBinsSomeSpec _ _ _ hw1
        obtain ⟨hl2, hsum2, hmin2⟩ := walkBinsSomeSpec _ _ _ hw2
        have hii : i1 ≤ i2 := by
          by_contra hcon
          have h21' : i2 < i1 := by omega
          have := hmin1 i2 h21'
          omega
        rw [← h1, ← h2]
        exact binOutValueMono n hc i1 i2 hii hl2

/-- **C7, witness.**  On the `buildFromSamples(unit, [2,5])` histogram the
0th percentile is the `[2, 3.5]` central bin's midpoint `11/4` and the 100th
percentile is the overflow bin's min `5`; the theorem instance gives
`11/4 ≤ 5`. -/
theorem c7_percentile_monotone_witness : (11 / 4 : ℚ) ≤ 5 :=
  c7_percentile_monotone exBFS
    (by norm_num [exBFS, Numeric.allBins, binsContiguousB, maxJSValue])
    0 1 (by norm_num) (by norm_num) (by norm_num) (11 / 4) 5
    (by norm_num [exBFS, Numeric.getApproximatePercentile, Numeric.numValues,
      Numeric.allBins, Numeric.walkBins, Numeric.binOutValue])
    (by norm_num [exBFS, Numeric.getApproximatePercentile, Numeric.numValues,
      Numeric.allBins, Numeric.walkBins, Numeric.binOutValue])
